import Mathlib

/-!
Verification of the zapr structured-logging facade.

The development shallowly embeds the repository's Go code:

* `Arg`, `ZField`, `sweeten` — `sink.sweeten` (sink.go), the key-value
  salvage pass;
* `GoSink`, `sinkInfo`, `sinkError`, `sinkEnabled`, `sinkWithValues`,
  `sinkWithName`, `sinkWithCallDepth` — the concrete `sink` (sink.go);
* `ZSink` — a syntactic model of a `logr.LogSink` value: the discard
  singleton, an attached concrete sink (`base`), and the derivation
  calls applied to it, recording which derivations were made in which
  order (the concrete sink returns a fresh node from each derivation,
  the noop sink returns the shared discard instance);
* `LazyTree`, `setSink`, `withValuesGo`, `withNameGo`, `withCallDepthGo`
  — the `lazySink` tree (encoder.go): one node per lazy sink with its
  atomic backing-sink reference, runtime info, `set` flag, buffered
  name/values/depth and child list;
* `GoOption`, `sortedOptions`, `configWithOptions` — the weighted
  option machinery (options file); `sort.Stable` is modelled by an
  insertion sort, justified by the sortedness and stability theorems
  proved below (a stable sort is unique);
* the encoder registry and its flag value (encoder.go).

Locks and atomics are not modelled: the embedding is sequential, every
operation is a pure state transformation.
-/

namespace Zapr

/-- Key-value argument passed to a log call (`...any` in Go): a string
(usable as a key), a `zapcore.Field` carrying its key, or any other
value (identified by a tag). -/
inductive Arg where
  | str (s : String)
  | field (key : String)
  | other (id : Nat)
deriving DecidableEq

/-- An output field handed to the zap engine: `zap.Any key value` for a
well-formed pair, or a foreign `zapcore.Field` accepted verbatim. -/
inductive ZField where
  | pair (key : String) (v : Arg)
  | raw (key : String)
deriving DecidableEq

/-- Syntactic model of a `logr.LogSink` value as the lazy sink sees it:
the process-wide discard singleton, an attached concrete sink (with its
configured maximum info level), or a derivation of one of those.  A
constructor application records that the corresponding method was called
on the inner sink and returned a fresh node. -/
inductive ZSink where
  | discard
  | base (maxLevel : Int)
  | init (s : ZSink) (callDepth : Int)
  | withName (s : ZSink) (name : String)
  | withValues (s : ZSink) (values : List Arg)
  | withCallDepth (s : ZSink) (depth : Int)
deriving DecidableEq

/-- Dispatch of `Init`: `noopLogSink.Init` does nothing and leaves the
discard singleton as it is; the concrete sink records its runtime info. -/
def zsinkInit (s : ZSink) (callDepth : Int) : ZSink :=
  match s with
  | .discard => .discard
  | s => .init s callDepth

/-- Dispatch of `WithName`: `noopLogSink.WithName` returns the shared
`discard`; the concrete sink returns a fresh derived node. -/
def zsinkWithName (s : ZSink) (name : String) : ZSink :=
  match s with
  | .discard => .discard
  | s => .withName s name

/-- Dispatch of `WithValues`, as `zsinkWithName`. -/
def zsinkWithValues (s : ZSink) (values : List Arg) : ZSink :=
  match s with
  | .discard => .discard
  | s => .withValues s values

/-- Dispatch of `WithCallDepth`: the noop sink returns `discard`; the
concrete sink (sink.go) returns the receiver itself when `depth == 0`
and a fresh node otherwise. -/
def zsinkWithCallDepth (s : ZSink) (depth : Int) : ZSink :=
  match s with
  | .discard => .discard
  | s => if depth = 0 then s else .withCallDepth s depth

/-- The concrete sink a derivation chain bottoms out in. -/
def rootOf : ZSink → ZSink
  | .discard => .discard
  | .base m => .base m
  | .init s _ => rootOf s
  | .withName s _ => rootOf s
  | .withValues s _ => rootOf s
  | .withCallDepth s _ => rootOf s

/-- `Enabled` through a derivation chain: the concrete sink answers
`level <= maxLevel` (derivations copy `maxLevel`), the discard sink
always answers false. -/
def zsinkEnabled (s : ZSink) (level : Int) : Bool :=
  match rootOf s with
  | .base m => decide (level ≤ m)
  | _ => false

/-- What an `Info` call on a backing sink emits: nothing for the discard
sink, nothing above the configured level, otherwise the entry. -/
def zsinkInfoEmit (s : ZSink) (level : Int) (msg : String) (kvs : List Arg) :
    Option (Int × String × List Arg) :=
  match rootOf s with
  | .base m => if level ≤ m then some (level, msg, kvs) else none
  | _ => none

/-- What an `Error` call on a backing sink emits: nothing for the
discard sink, otherwise the entry (the concrete sink does not consult
its configured level for errors). -/
def zsinkErrorEmit (s : ZSink) (msg : String) (kvs : List Arg) :
    Option (String × List Arg) :=
  match rootOf s with
  | .base _ => some (msg, kvs)
  | _ => none

/-- A `lazySink` node (encoder.go): backing sink reference, runtime-info
call depth, the `set` flag, the buffered name, depth and values, and the
child list in insertion order. -/
inductive LazyTree where
  | node (sink : ZSink) (info : Int) (set : Bool) (name : String)
      (depth : Int) (values : List Arg) (children : List LazyTree)

/-- Backing sink of a node. -/
def sinkOf : LazyTree → ZSink
  | .node s _ _ _ _ _ _ => s

/-- Runtime-info call depth of a node. -/
def infoOf : LazyTree → Int
  | .node _ i _ _ _ _ _ => i

/-- The `set` flag of a node. -/
def setOf : LazyTree → Bool
  | .node _ _ b _ _ _ _ => b

/-- Buffered name of a node. -/
def nameOf : LazyTree → String
  | .node _ _ _ n _ _ _ => n

/-- Buffered call-depth adjustment of a node. -/
def depthOf : LazyTree → Int
  | .node _ _ _ _ d _ _ => d

/-- Buffered values of a node. -/
def valuesOf : LazyTree → List Arg
  | .node _ _ _ _ _ v _ => v

/-- Children of a node. -/
def childrenOf : LazyTree → List LazyTree
  | .node _ _ _ _ _ _ c => c

/-- `newLazySink`: backing is the discard singleton, everything else the
zero value. -/
def newLazySink : LazyTree :=
  .node .discard 0 false "" 0 [] []

/-- The body of `lazySink.SetSink` up to the store: initialize the given
sink with the node's runtime info, then re-bind it through `WithName`,
`WithValues` and `WithCallDepth` under the source's conditions
(`s.name != ""`, `len(s.values) > 0`, `s.depth > 0`). -/
def deriveChain (name : String) (values : List Arg) (depth : Int)
    (info : Int) (s : ZSink) : ZSink :=
  let s1 := zsinkInit s info
  let s2 := if name ≠ "" then zsinkWithName s1 name else s1
  let s3 := if values.length > 0 then zsinkWithValues s2 values else s2
  if 0 < depth then zsinkWithCallDepth s3 depth else s3

mutual
/-- `lazySink.SetSink`: derive the given sink through the node's
buffers, store it, mark the node set, and recursively attach every child
to the derived sink. -/
def setSink : LazyTree → ZSink → LazyTree
  | .node _ info _ name depth values children, s =>
    let s4 := deriveChain name values depth info s
    .node s4 info true name depth values (setSinkAll children s4)

/-- The `for _, c := range s.children { c.SetSink(sink) }` loop. -/
def setSinkAll : List LazyTree → ZSink → List LazyTree
  | [], _ => []
  | c :: cs, s => setSink c s :: setSinkAll cs s
end

/-- Modelled from the spec's wording of claim C1, step by step: initialize
the sink with the node's runtime metadata; if the node has a buffered
name derive `WithName`; if it has buffered values derive `WithValues`;
if it has a buffered NON-ZERO depth derive `WithCallDepth`; store the
result, mark attached, recurse into the children with the derived sink. -/
def specDerive (name : String) (values : List Arg) (depth : Int)
    (info : Int) (s : ZSink) : ZSink :=
  let s1 := zsinkInit s info
  let s2 := if name = "" then s1 else zsinkWithName s1 name
  let s3 := if values = [] then s2 else zsinkWithValues s2 values
  if depth = 0 then s3 else zsinkWithCallDepth s3 depth

mutual
/-- Attachment as claim C1 words it (`specDerive`, non-zero depth). -/
def attachSpec : LazyTree → ZSink → LazyTree
  | .node _ info _ name depth values children, s =>
    let d := specDerive name values depth info s
    .node d info true name depth values (attachSpecAll children d)

/-- Children loop of `attachSpec`. -/
def attachSpecAll : List LazyTree → ZSink → List LazyTree
  | [], _ => []
  | c :: cs, s => attachSpec c s :: attachSpecAll cs s
end

/-- The amended step list: as `specDerive` except that `WithCallDepth`
is derived only for a POSITIVE buffered depth. -/
def specDerivePos (name : String) (values : List Arg) (depth : Int)
    (info : Int) (s : ZSink) : ZSink :=
  let s1 := zsinkInit s info
  let s2 := if name = "" then s1 else zsinkWithName s1 name
  let s3 := if values = [] then s2 else zsinkWithValues s2 values
  if 0 < depth then zsinkWithCallDepth s3 depth else s3

mutual
/-- Attachment as the amended claim words it (`specDerivePos`). -/
def attachSpecPos : LazyTree → ZSink → LazyTree
  | .node _ info _ name depth values children, s =>
    let d := specDerivePos name values depth info s
    .node d info true name depth values (attachSpecPosAll children d)

/-- Children loop of `attachSpecPos`. -/
def attachSpecPosAll : List LazyTree → ZSink → List LazyTree
  | [], _ => []
  | c :: cs, s => attachSpecPos c s :: attachSpecPosAll cs s
end

/-- The `s.children = append(s.children, child)` step. -/
def appendChild : LazyTree → LazyTree → LazyTree
  | .node sk info b name depth values children, c =>
    .node sk info b name depth values (children ++ [c])

/-- `lazySink.WithValues`: create and initialize a child buffering the
given values; if this sink is already set, call `SetSink` ON THE PARENT
with its current backing sink (as the source does); then append the
child.  Returns (updated parent, returned child). -/
def withValuesGo (t : LazyTree) (kvs : List Arg) : LazyTree × LazyTree :=
  match t with
  | .node sk info b name depth values children =>
    let child := .node .discard (info + 1) false "" 0 kvs []
    let parent := if b then setSink (.node sk info b name depth values children) sk
      else .node sk info b name depth values children
    (appendChild parent child, child)

/-- `lazySink.WithName`, same pattern buffering the name. -/
def withNameGo (t : LazyTree) (n : String) : LazyTree × LazyTree :=
  match t with
  | .node sk info b name depth values children =>
    let child := .node .discard (info + 1) false n 0 [] []
    let parent := if b then setSink (.node sk info b name depth values children) sk
      else .node sk info b name depth values children
    (appendChild parent child, child)

/-- `lazySink.WithCallDepth`, same pattern buffering the depth. -/
def withCallDepthGo (t : LazyTree) (d : Int) : LazyTree × LazyTree :=
  match t with
  | .node sk info b name depth values children =>
    let child := .node .discard (info + 1) false "" d [] []
    let parent := if b then setSink (.node sk info b name depth values children) sk
      else .node sk info b name depth values children
    (appendChild parent child, child)

/-- `lazySink.Enabled` forwards to the current backing sink. -/
def lazyEnabled (t : LazyTree) (level : Int) : Bool :=
  zsinkEnabled (sinkOf t) level

/-- `lazySink.Info`: forwards to the current backing sink and touches no
node state — the pair is (what is emitted, the unchanged tree). -/
def lazyInfoStep (t : LazyTree) (level : Int) (msg : String)
    (kvs : List Arg) : Option (Int × String × List Arg) × LazyTree :=
  (zsinkInfoEmit (sinkOf t) level msg kvs, t)

/-- `lazySink.Error`: forwards to the current backing sink and touches
no node state. -/
def lazyErrorStep (t : LazyTree) (msg : String)
    (kvs : List Arg) : Option (String × List Arg) × LazyTree :=
  (zsinkErrorEmit (sinkOf t) msg kvs, t)

/-- No sink has ever been attached to this node or any ancestor: the
backing is the discard singleton and the flag is unset, recursively. -/
def unattached : LazyTree → Prop
  | .node sk _ b _ _ _ children =>
    sk = .discard ∧ b = false ∧ ∀ c ∈ children, unattached c

/-- Every node of the tree is correctly attached to a derivation of `s`:
its backing is the chain derived from `s` through its own buffered name,
values and depth, its flag is set, and each child is in turn correctly
attached to THIS node's derived backing. -/
def fullyAttached : ZSink → LazyTree → Prop
  | s, .node sk info b name depth values children =>
    sk = deriveChain name values depth info s ∧ b = true ∧
      ∀ c ∈ children, fullyAttached sk c

/-- Every backing sink in the tree bottoms out in the concrete sink
`base m`. -/
def treeRooted (m : Int) : LazyTree → Prop
  | .node sk _ _ _ _ _ children =>
    rootOf sk = .base m ∧ ∀ c ∈ children, treeRooted m c

/-- An unattached node whose buffered call-depth adjustment is -1
(obtainable via `WithCallDepth(-1)` on a fresh lazy sink). -/
def negDepthNode : LazyTree := .node .discard 0 false "" (-1) [] []

/-- A lazy root that has been attached to the concrete sink `base 0`. -/
def attachedRoot : LazyTree := setSink newLazySink (ZSink.base 0)

/-- Sample key-value arguments. -/
def exampleKvs : List Arg := [.str "k", .str "v"]

/-- The node `u` occurs in the tree (as the root or in a subtree). -/
inductive InTree (u : LazyTree) : LazyTree → Prop where
  | head (t : LazyTree) (h : u = t) : InTree u t
  | via (t c : LazyTree) (hc : c ∈ childrenOf t) (h : InTree u c) : InTree u t

/-- Pluggable whole-entry encoders of the external `encoding` package,
identified by name. -/
inductive EncoderTag where
  | json
  | console
deriving DecidableEq

/-- Time encoders of the external `encoding` package. -/
inductive TimeEncoderTag where
  | iso8601
  | rfc3339
  | millis
  | nanos
  | secs
deriving DecidableEq

/-- Level encoders of the external `encoding` package. -/
inductive LevelEncoderTag where
  | upper
  | lower
  | color
deriving DecidableEq

/-- Duration encoders of the external `encoding` package. -/
inductive DurationEncoderTag where
  | secs
  | string
  | nanos
  | millis
deriving DecidableEq

/-- Caller encoders of the external `encoding` package. -/
inductive CallerEncoderTag where
  | short
  | full
deriving DecidableEq

/-- Output destination: the locked standard error stream or a custom
write syncer. -/
inductive WriterTag where
  | stderr
  | custom (id : Nat)
deriving DecidableEq

/-- The `config` record built by `configWithOptions`.  Durations are in
nanoseconds (`time.Duration`); the observer and sampler options are
opaque external values identified by tags. -/
structure Cfg where
  ws : WriterTag
  name : String
  level : Int
  timeKey : String
  levelKey : String
  nameKey : String
  callerKey : String
  functionKey : String
  messageKey : String
  errorKey : String
  stacktraceKey : String
  lineEnding : String
  encoder : EncoderTag
  timeEncoder : TimeEncoderTag
  levelEncoder : LevelEncoderTag
  durationEncoder : DurationEncoderTag
  callerEncoder : CallerEncoderTag
  enableStacktrace : Bool
  enableCaller : Bool
  development : Bool
  sampleTick : Int
  sampleFirst : Int
  sampleThereafter : Int
  sampleOpts : List Nat
  observer : Option Nat
deriving DecidableEq

/-- An `Option`: a mutation of the config plus a priority weight. -/
structure GoOption where
  w : Int
  fn : Cfg → Cfg

/-- `optionFunc`: weight defaults to 0. -/
def optionFunc (fn : Cfg → Cfg) : GoOption := ⟨0, fn⟩

/-- `weightedOptionFunc`. -/
def weightedOptionFunc (w : Int) (fn : Cfg → Cfg) : GoOption := ⟨w, fn⟩

/-- `sort.IsSorted(byWeightDesc(options))`: no adjacent pair increases
in weight. -/
def isSortedByWeightDesc : List GoOption → Bool
  | [] => true
  | [_] => true
  | a :: b :: rest => decide (b.w ≤ a.w) && isSortedByWeightDesc (b :: rest)

/-- One insertion step of the stable descending insertion sort: skip the
strictly heavier elements, then insert before the first element that is
not heavier (so an equal-weight element inserted from the left stays to
the left). -/
def insertDesc (x : GoOption) : List GoOption → List GoOption
  | [] => [x]
  | y :: ys => if x.w < y.w then y :: insertDesc x ys else x :: y :: ys

/-- `sort.Stable(byWeightDesc(options))` modelled as a stable insertion
sort (the stability and sortedness theorems below pin the result down;
any two stable sorts by the same comparator agree). -/
def stableSortDesc : List GoOption → List GoOption
  | [] => []
  | x :: xs => insertDesc x (stableSortDesc xs)

/-- `sortedOptions`: an already sorted input is used as-is, otherwise a
copy is stable-sorted by descending weight. -/
def sortedOptions (options : List GoOption) : List GoOption :=
  if isSortedByWeightDesc options then options else stableSortDesc options

/-- `configWithOptions`: the default config record of the source,
mutated by the options in sorted order. -/
def configWithOptions (options : List GoOption) : Cfg :=
  (sortedOptions options).foldl (fun c o => o.fn c)
    { ws := .stderr
      name := ""
      level := 0
      timeKey := "time"
      levelKey := "level"
      nameKey := "logger"
      callerKey := "caller"
      functionKey := ""
      messageKey := "msg"
      errorKey := "error"
      stacktraceKey := "stacktrace"
      lineEnding := "\n"
      encoder := .json
      timeEncoder := .iso8601
      levelEncoder := .upper
      durationEncoder := .secs
      callerEncoder := .short
      enableStacktrace := false
      enableCaller := true
      development := false
      sampleTick := 1000000000
      sampleFirst := 100
      sampleThereafter := 100
      sampleOpts := []
      observer := none }

/-- `WithLevel`. -/
def withLevel (level : Int) : GoOption :=
  optionFunc fun c => { c with level := level }

/-- `WithDevelopmentOptions`: the weight-1 development bundle. -/
def withDevelopmentOptions : GoOption :=
  weightedOptionFunc 1 fun c =>
    { c with
      level := 3
      functionKey := "func"
      encoder := .console
      levelEncoder := .color
      durationEncoder := .string
      enableStacktrace := true
      development := true }

/-- `sink.sweeten` (sink.go): walk the key-value arguments left to
right; a string key at the end with no value is dropped (returning the
fields collected so far); a string key followed by a value yields
`zap.Any(key, value)`; a `zapcore.Field` is reported and accepted
verbatim; anything else in key position is reported and dropped
together with its value.  The `DPanic` self-reports carry no fields of
their own and are not modelled. -/
def sweeten : List Arg → List ZField
  | [] => []
  | [.str _] => []
  | .str k :: v :: rest => .pair k v :: sweeten rest
  | .field k :: rest => .raw k :: sweeten rest
  | [.other _] => []
  | .other _ :: _ :: rest => sweeten rest

/-- A list of complete key-value pairs laid out as alternating
arguments. -/
def flattenPairs : List (String × Arg) → List Arg
  | [] => []
  | (k, v) :: ps => .str k :: v :: flattenPairs ps

/-- The concrete `sink` (sink.go).  The two zap loggers it holds are
modelled by their observable state: `names` is the chain of
`Named(...)` segments applied to the underlying logger, `withFields`
the fields accumulated on the derived logger via `With(...)`, and
`callerSkip` its accumulated caller skip (`Init` rebuilds the derived
logger from the underlying one, which resets `withFields`). -/
structure GoSink where
  names : List String
  withFields : List ZField
  callerSkip : Int
  info : Int
  depth : Int
  errKey : String
  maxLevel : Int
deriving DecidableEq

/-- `sink.Init`: store the runtime info and rebuild the derived logger
from the underlying logger with caller skip `info.CallDepth + depth`. -/
def sinkInit (s : GoSink) (info : Int) : GoSink :=
  { s with info := info, callerSkip := info + s.depth, withFields := [] }

/-- `sink.WithValues`: copy the receiver and extend the derived
logger's fields; the Bool records that the Go code allocated a new sink
(`v := *s; ...; return &v`). -/
def sinkWithValues (s : GoSink) (kvs : List Arg) : GoSink × Bool :=
  ({ s with withFields := s.withFields ++ sweeten kvs }, true)

/-- `sink.WithName`: copy the receiver, name the underlying logger and
re-`Init` the copy. -/
def sinkWithName (s : GoSink) (n : String) : GoSink × Bool :=
  ({ s with
      names := s.names ++ [n]
      withFields := []
      callerSkip := s.info + s.depth }, true)

/-- `sink.WithCallDepth`: for a zero depth the RECEIVER ITSELF is
returned (`if depth == 0 { return s }`, Bool false = no new node);
otherwise a copy with the accumulated depth, re-initialized. -/
def sinkWithCallDepth (s : GoSink) (d : Int) : GoSink × Bool :=
  if d = 0 then (s, false)
  else
    ({ s with
        depth := s.depth + d
        callerSkip := s.info + (s.depth + d)
        withFields := [] }, true)

/-- The process-wide discard sink (`noopLogSink`), which has no state. -/
inductive DiscardSink where
  | mk
deriving DecidableEq

/-- `noopLogSink.WithValues` returns the shared `discard` value, not a
new node (Bool false = no allocation). -/
def discardWithValues (_ : DiscardSink) (_ : List Arg) : DiscardSink × Bool :=
  (.mk, false)

/-- `noopLogSink.WithName` returns the shared `discard` value. -/
def discardWithName (_ : DiscardSink) (_ : String) : DiscardSink × Bool :=
  (.mk, false)

/-- `noopLogSink.WithCallDepth` returns the shared `discard` value. -/
def discardWithCallDepth (_ : DiscardSink) (_ : Int) : DiscardSink × Bool :=
  (.mk, false)

/-- A concrete sink for the C8 counterexample. -/
def exampleGoSink : GoSink :=
  { names := [], withFields := [], callerSkip := 0, info := 0, depth := 0,
    errKey := "error", maxLevel := 0 }

/-- A named encoder of the registry, identified by its name and a tag
for its constructor. -/
structure GoEncoder where
  name : String
  id : Nat
deriving DecidableEq

/-- `RegisterEncoder` (encoder.go): reject a duplicate name with a
descriptive error and leave the registry as it was; otherwise add the
encoder under its name. -/
def registerEncoder (reg : List (String × GoEncoder)) (e : GoEncoder) :
    Except String (List (String × GoEncoder)) :=
  if (reg.lookup e.name).isSome then
    .error ("zapr: Encoder \"" ++ e.name ++ "\" already ")
  else
    .ok ((e.name, e) :: reg)

/-- `encoderFlag.Set`: look the name up in the registry; on success
assign the target, on an unknown name return a descriptive error and
leave the target unchanged. -/
def encoderFlagSet (reg : List (String × GoEncoder)) (s : String)
    (old : GoEncoder) : Option String × GoEncoder :=
  match reg.lookup s with
  | some e => (none, e)
  | none => (some ("zapr: unknown Encoder: \"" ++ s ++ "\""), old)

/-- Level of an emitted entry. -/
inductive LevelTag where
  | info
  | error
deriving DecidableEq

/-- An entry handed to the zap engine. -/
structure Entry where
  level : LevelTag
  msg : String
  fields : List ZField
deriving DecidableEq

/-- `sink.Enabled`: `level <= s.maxLevel`. -/
def sinkEnabled (s : GoSink) (level : Int) : Bool :=
  decide (level ≤ s.maxLevel)

/-- `sink.Info`: drop the call when `level > s.maxLevel`, otherwise
emit at zap's info level (the engine's core is levelled at info, so the
`Check` succeeds). -/
def sinkInfo (s : GoSink) (level : Int) (msg : String) (kvs : List Arg) :
    Option Entry :=
  if s.maxLevel < level then none
  else some ⟨.info, msg, s.withFields ++ sweeten kvs⟩

/-- `sink.Error`: always emit at zap's error level; when an error key is
configured and an error value is present, append the pair to the
arguments before sweetening.  The configured maximum level is not
consulted. -/
def sinkError (s : GoSink) (err : Option String) (msg : String)
    (kvs : List Arg) : Option Entry :=
  match err with
  | some e =>
    if s.errKey = "" then some ⟨.error, msg, s.withFields ++ sweeten kvs⟩
    else
      some ⟨.error, msg,
        s.withFields ++ sweeten (kvs ++ [.str s.errKey, .str e])⟩
  | none => some ⟨.error, msg, s.withFields ++ sweeten kvs⟩

/-- Induction over a lazy-sink tree: a property holding of a node
whenever it holds of all its children holds of every tree. -/
theorem lazyTreeInd {P : LazyTree → Prop}
    (h : ∀ sk info b name depth values children,
      (∀ c ∈ children, P c) → P (.node sk info b name depth values children)) :
    ∀ t, P t
  | .node sk info b name depth values children =>
    h sk info b name depth values children fun c hc =>
      have : sizeOf c < sizeOf (LazyTree.node sk info b name depth values children) :=
        Nat.lt_trans (List.sizeOf_lt_of_mem hc) (by simp)
      lazyTreeInd h c
termination_by t => sizeOf t

theorem setSinkAll_eq_map (cs : List LazyTree) (s : ZSink) :
    setSinkAll cs s = cs.map fun c => setSink c s := by
  induction cs with
  | nil => rfl
  | cons c cs ih => simp [setSinkAll, ih]

theorem attachSpecAll_eq_map (cs : List LazyTree) (s : ZSink) :
    attachSpecAll cs s = cs.map fun c => attachSpec c s := by
  induction cs with
  | nil => rfl
  | cons c cs ih => simp [attachSpecAll, ih]

theorem attachSpecPosAll_eq_map (cs : List LazyTree) (s : ZSink) :
    attachSpecPosAll cs s = cs.map fun c => attachSpecPos c s := by
  induction cs with
  | nil => rfl
  | cons c cs ih => simp [attachSpecPosAll, ih]

theorem rootOf_zsinkInit (s : ZSink) (d : Int) :
    rootOf (zsinkInit s d) = rootOf s := by
  cases s <;> simp [zsinkInit, rootOf]

theorem rootOf_zsinkWithName (s : ZSink) (n : String) :
    rootOf (zsinkWithName s n) = rootOf s := by
  cases s <;> simp [zsinkWithName, rootOf]

theorem rootOf_zsinkWithValues (s : ZSink) (v : List Arg) :
    rootOf (zsinkWithValues s v) = rootOf s := by
  cases s <;> simp [zsinkWithValues, rootOf]

theorem rootOf_zsinkWithCallDepth (s : ZSink) (d : Int) :
    rootOf (zsinkWithCallDepth s d) = rootOf s := by
  cases s <;> simp [zsinkWithCallDepth, rootOf] <;> split <;> simp [rootOf]

theorem rootOf_deriveChain (name : String) (values : List Arg)
    (depth : Int) (info : Int) (s : ZSink) :
    rootOf (deriveChain name values depth info s) = rootOf s := by
  unfold deriveChain
  by_cases h1 : name ≠ "" <;> by_cases h2 : values.length > 0 <;>
    by_cases h3 : 0 < depth <;>
    simp [h1, h2, h3, rootOf_zsinkInit, rootOf_zsinkWithName,
      rootOf_zsinkWithValues, rootOf_zsinkWithCallDepth]

/-- `SetSink` attaches the whole subtree correctly: every node's backing
becomes the chain derived from its parent's derived sink. -/
theorem setSink_fullyAttached : ∀ t, ∀ s, fullyAttached s (setSink t s) := by
  refine lazyTreeInd ?_
  intro sk info b name depth values children ih s
  simp only [setSink, fullyAttached, setSinkAll_eq_map]
  refine ⟨trivial, trivial, ?_⟩
  intro c' hc'
  obtain ⟨c, hc, rfl⟩ := List.mem_map.1 hc'
  exact ih c hc _

/-- After `SetSink` with a sink rooted in `base m`, every backing sink
in the tree is rooted in `base m`. -/
theorem setSink_treeRooted :
    ∀ t, ∀ s m, rootOf s = .base m → treeRooted m (setSink t s) := by
  refine lazyTreeInd ?_
  intro sk info b name depth values children ih s m hs
  simp only [setSink, treeRooted, setSinkAll_eq_map]
  refine ⟨by rw [rootOf_deriveChain]; exact hs, ?_⟩
  intro c' hc'
  obtain ⟨c, hc, rfl⟩ := List.mem_map.1 hc'
  exact ih c hc _ m (by rw [rootOf_deriveChain]; exact hs)

theorem deriveChain_eq_specDerivePos (name : String) (values : List Arg)
    (depth : Int) (info : Int) (s : ZSink) :
    deriveChain name values depth info s = specDerivePos name values depth info s := by
  unfold deriveChain specDerivePos
  by_cases h1 : name = "" <;> by_cases h2 : values = [] <;>
    simp [h1, h2, List.length_pos, ne_eq]

/-- The code's attachment coincides with the amended step list
(`WithCallDepth` derived exactly for positive buffered depth). -/
theorem setSink_eq_attachSpecPosAux : ∀ t, ∀ s, setSink t s = attachSpecPos t s := by
  refine lazyTreeInd ?_
  intro sk info b name depth values children ih s
  simp only [setSink, attachSpecPos, setSinkAll_eq_map, attachSpecPosAll_eq_map,
    deriveChain_eq_specDerivePos]
  exact congrArg _ (List.map_congr_left fun c hc => ih c hc _)

/-- C1, counterexample: at a node with buffered depth -1 the code's
`SetSink` does NOT derive `WithCallDepth` (the source tests
`s.depth > 0`), while the claim's step list (`non-zero depth`) does, so
`SetSink` differs from the claim's procedure at this input. -/
theorem setSink_ne_attachSpec_at_negDepth :
    ¬ setSink negDepthNode (ZSink.base 0) = attachSpec negDepthNode (ZSink.base 0) :=
  fun h => absurd (congrArg sinkOf h) (by decide)

/-- C1 (amended): for every lazy sink node, `SetSink(sink)` performs
exactly the claimed steps in order — initialize the sink with the node's
runtime metadata, derive `WithName(name)` if a name is buffered, derive
`WithValues(values)` if values are buffered, derive
`WithCallDepth(depth)` if the buffered depth is POSITIVE (not merely
non-zero), store the fully derived result, mark the node attached, and
recursively `SetSink` every child in insertion order with the parent's
fully derived sink. -/
theorem setSink_eq_attachSpecPos (t : LazyTree) (s : ZSink) :
    setSink t s = attachSpecPos t s :=
  setSink_eq_attachSpecPosAux t s

/-- C2, at the failing input: the parent is an attached lazy root, yet
the child returned by `WithValues` is NOT attached — its backing sink is
the discard singleton, its flag is unset, `Enabled` is false, and its
log calls emit nothing — because the source calls `s.SetSink(...)` on
the PARENT (before appending the child) instead of attaching the child;
the parent's backing is re-derived a second time on top of the already
derived sink (the double `init` in the last conjunct).  In Go the call
also self-deadlocks: `SetSink` re-locks the mutex `WithValues` already
holds. -/
theorem withValues_after_attach_child_not_attached :
    (withValuesGo attachedRoot exampleKvs).2 =
        LazyTree.node .discard 1 false "" 0 exampleKvs [] ∧
    sinkOf (withValuesGo attachedRoot exampleKvs).2 = ZSink.discard ∧
    setOf (withValuesGo attachedRoot exampleKvs).2 = false ∧
    lazyEnabled (withValuesGo attachedRoot exampleKvs).2 0 = false ∧
    (lazyInfoStep (withValuesGo attachedRoot exampleKvs).2 0 "m" []).1 = none ∧
    sinkOf (withValuesGo attachedRoot exampleKvs).1 =
        ZSink.init (ZSink.init (ZSink.base 0) 0) 0 :=
  ⟨rfl, rfl, rfl, rfl, rfl, rfl⟩

theorem treeRooted_root {m : Int} {t : LazyTree} (h : treeRooted m t) :
    rootOf (sinkOf t) = .base m := by
  obtain ⟨sk, info, b, name, depth, values, children⟩ := t
  simp only [treeRooted] at h
  exact h.1

theorem treeRooted_child {m : Int} {t c : LazyTree} (h : treeRooted m t)
    (hc : c ∈ childrenOf t) : treeRooted m c := by
  obtain ⟨sk, info, b, name, depth, values, children⟩ := t
  simp only [treeRooted] at h
  exact h.2 c hc

theorem treeRooted_inTree {m : Int} {u t : LazyTree} (hin : InTree u t) :
    treeRooted m t → rootOf (sinkOf u) = .base m := by
  induction hin with
  | head t h => intro hr; subst h; exact treeRooted_root hr
  | via t c hc h ih => intro hr; exact ih (treeRooted_child hr hc)

/-- C3: re-attaching a sink `base b` at the root of ANY lazy-sink tree
(in particular one previously attached to a sink `base a` with children
derived in between) leaves every descendant correctly attached: each
node's backing is the fresh chain derived from its parent's derived
sink through its own buffered name, values and depth (`fullyAttached`),
and every descendant's backing bottoms out in `base b` — so no log call
forwarded to a backing sink can reach the previously attached sink. -/
theorem setSink_fully_reattaches (t : LazyTree) (b : Int) :
    fullyAttached (ZSink.base b) (setSink t (ZSink.base b)) ∧
      ∀ u, InTree u (setSink t (ZSink.base b)) →
        rootOf (sinkOf u) = ZSink.base b :=
  ⟨setSink_fullyAttached t _,
    fun _u hu => treeRooted_inTree hu (setSink_treeRooted t (ZSink.base b) b rfl)⟩

/-- C4: on a lazy sink on which (and on whose ancestors) `SetSink` has
never been called, `Enabled` is false at every level, `Info` and `Error`
emit nothing and leave the node state — hence the result of any later
attachment — untouched (dropped, never buffered or replayed); and the
constructor and all three derivation operations preserve the
never-attached state. -/
theorem preattach_silent (t : LazyTree) (level : Int) (msg : String)
    (kvs : List Arg) (n : String) (d : Int) (s : ZSink)
    (h : unattached t) :
    lazyEnabled t level = false ∧
    lazyInfoStep t level msg kvs = (none, t) ∧
    lazyErrorStep t msg kvs = (none, t) ∧
    setSink (lazyInfoStep t level msg kvs).2 s = setSink t s ∧
    unattached newLazySink ∧
    unattached (withValuesGo t kvs).1 ∧ unattached (withValuesGo t kvs).2 ∧
    unattached (withNameGo t n).1 ∧ unattached (withNameGo t n).2 ∧
    unattached (withCallDepthGo t d).1 ∧ unattached (withCallDepthGo t d).2 := by
  obtain ⟨sk, info, b, name, depth, values, children⟩ := t
  simp only [unattached] at h
  obtain ⟨hsk, hb, hch⟩ := h
  subst hsk hb
  have hnew : ∀ (i dp : Int) (nm : String) (vs : List Arg),
      unattached (.node .discard i false nm dp vs []) := by
    intro i dp nm vs
    simp [unattached]
  have happ : ∀ (c : LazyTree), unattached c →
      unattached (appendChild (.node .discard info false name depth values children) c) := by
    intro c hc
    simp only [appendChild, unattached]
    refine ⟨trivial, trivial, ?_⟩
    intro x hx
    rcases List.mem_append.1 hx with hl | hr
    · exact hch x hl
    · rw [List.mem_singleton.1 hr]
      exact hc
  refine ⟨rfl, rfl, rfl, rfl, hnew 0 0 "" [], ?_, ?_, ?_, ?_, ?_, ?_⟩
  · exact happ _ (hnew (info + 1) 0 "" kvs)
  · exact hnew (info + 1) 0 "" kvs
  · exact happ _ (hnew (info + 1) 0 n [])
  · exact hnew (info + 1) 0 n []
  · exact happ _ (hnew (info + 1) d "" [])
  · exact hnew (info + 1) d "" []

/-- C4, witness at a concrete never-attached sink. -/
theorem preattach_silent_witness :
    lazyEnabled newLazySink 3 = false ∧
    lazyInfoStep newLazySink 3 "m" exampleKvs = (none, newLazySink) ∧
    lazyErrorStep newLazySink "m" exampleKvs = (none, newLazySink) ∧
    setSink (lazyInfoStep newLazySink 3 "m" exampleKvs).2 (ZSink.base 0) =
      setSink newLazySink (ZSink.base 0) ∧
    unattached newLazySink ∧
    unattached (withValuesGo newLazySink exampleKvs).1 ∧
    unattached (withValuesGo newLazySink exampleKvs).2 ∧
    unattached (withNameGo newLazySink "n").1 ∧
    unattached (withNameGo newLazySink "n").2 ∧
    unattached (withCallDepthGo newLazySink 2).1 ∧
    unattached (withCallDepthGo newLazySink 2).2 :=
  preattach_silent newLazySink 3 "m" exampleKvs "n" 2 (ZSink.base 0)
    (by simp [unattached, newLazySink])

theorem mem_insertDesc {z x : GoOption} :
    ∀ {l : List GoOption}, z ∈ insertDesc x l → z = x ∨ z ∈ l := by
  intro l
  induction l with
  | nil => simp [insertDesc]
  | cons y ys ih =>
    simp only [insertDesc]
    split
    · intro h
      rcases List.mem_cons.1 h with rfl | h2
      · exact Or.inr (List.mem_cons_self _ _)
      · rcases ih h2 with h3 | h3
        · exact Or.inl h3
        · exact Or.inr (List.mem_cons_of_mem _ h3)
    · intro h
      rcases List.mem_cons.1 h with rfl | h2
      · exact Or.inl rfl
      · exact Or.inr h2

theorem pairwise_insertDesc {x : GoOption} :
    ∀ {l : List GoOption}, List.Pairwise (fun a b => b.w ≤ a.w) l →
      List.Pairwise (fun a b => b.w ≤ a.w) (insertDesc x l) := by
  intro l
  induction l with
  | nil => simp [insertDesc]
  | cons y ys ih =>
    intro h
    rw [List.pairwise_cons] at h
    obtain ⟨hy, hys⟩ := h
    simp only [insertDesc]
    split
    · rw [List.pairwise_cons]
      refine ⟨?_, ih hys⟩
      intro z hz
      rcases mem_insertDesc hz with rfl | h2
      · omega
      · exact hy z h2
    · rw [List.pairwise_cons]
      refine ⟨?_, List.pairwise_cons.2 ⟨hy, hys⟩⟩
      intro z hz
      rcases List.mem_cons.1 hz with rfl | h2
      · omega
      · have := hy z h2
        omega

theorem pairwise_stableSortDesc (l : List GoOption) :
    List.Pairwise (fun a b => b.w ≤ a.w) (stableSortDesc l) := by
  induction l with
  | nil => simp [stableSortDesc]
  | cons x xs ih => exact pairwise_insertDesc ih

theorem filter_insertDesc (v : Int) (x : GoOption) :
    ∀ l : List GoOption,
      (insertDesc x l).filter (fun o => o.w == v) =
        (x :: l).filter (fun o => o.w == v) := by
  intro l
  induction l with
  | nil => rfl
  | cons y ys ih =>
    simp only [insertDesc]
    split
    · rename_i hlt
      by_cases hx : x.w = v
      · have hy : ¬ y.w = v := by omega
        simp [List.filter_cons, hx, hy, ih]
      · simp [List.filter_cons, hx, ih]
    · rfl

theorem filter_stableSortDesc (v : Int) :
    ∀ l : List GoOption,
      (stableSortDesc l).filter (fun o => o.w == v) =
        l.filter (fun o => o.w == v) := by
  intro l
  induction l with
  | nil => rfl
  | cons x xs ih =>
    simp only [stableSortDesc]
    rw [filter_insertDesc]
    simp [List.filter_cons, ih]

theorem isSorted_pairwise :
    ∀ l : List GoOption, isSortedByWeightDesc l = true →
      List.Pairwise (fun a b => b.w ≤ a.w) l := by
  intro l
  induction l with
  | nil => intro _; simp
  | cons a l ih =>
    cases l with
    | nil => intro _; simp
    | cons b rest =>
      intro h
      simp only [isSortedByWeightDesc, Bool.and_eq_true, decide_eq_true_eq] at h
      obtain ⟨hab, hrest⟩ := h
      have hp := ih hrest
      rw [List.pairwise_cons]
      refine ⟨?_, hp⟩
      intro z hz
      rcases List.mem_cons.1 hz with rfl | h2
      · exact hab
      · have := (List.pairwise_cons.1 hp).1 z h2
        omega

/-- C5: option application is ordered by non-increasing weight with
stable tie-breaking — an input already sorted by non-increasing weight
is used as-is; the applied order is always sorted by non-increasing
weight; options of any fixed weight keep their original relative order
(stability, stated via `filter`); and for the concrete input
`[WithLevel 1, WithDevelopmentOptions, WithLevel 5]` the resulting
level is 5. -/
theorem option_application_ordered :
    (∀ l : List GoOption, isSortedByWeightDesc l = true → sortedOptions l = l) ∧
    (∀ l : List GoOption,
      List.Pairwise (fun a b => b.w ≤ a.w) (sortedOptions l)) ∧
    (∀ (l : List GoOption) (v : Int),
      (sortedOptions l).filter (fun o => o.w == v) =
        l.filter (fun o => o.w == v)) ∧
    (configWithOptions [withLevel 1, withDevelopmentOptions, withLevel 5]).level = 5 := by
  refine ⟨?_, ?_, ?_, rfl⟩
  · intro l h
    simp [sortedOptions, h]
  · intro l
    unfold sortedOptions
    split
    · rename_i h
      exact isSorted_pairwise l h
    · exact pairwise_stableSortDesc l
  · intro l v
    unfold sortedOptions
    split
    · rfl
    · exact filter_stableSortDesc v l

/-- C6: the configuration built with an empty option list has exactly
the documented defaults: locked stderr, empty name, level 0, the listed
field keys (function key empty, i.e. disabled), newline line ending,
JSON encoder, ISO-8601 time, uppercase level, seconds duration, short
caller, stacktrace off, caller on, development off, and sampling with a
one-second tick, 100 first, 1 in 100 thereafter. -/
theorem configWithOptions_defaults :
    configWithOptions [] =
      { ws := .stderr
        name := ""
        level := 0
        timeKey := "time"
        levelKey := "level"
        nameKey := "logger"
        callerKey := "caller"
        functionKey := ""
        messageKey := "msg"
        errorKey := "error"
        stacktraceKey := "stacktrace"
        lineEnding := "\n"
        encoder := .json
        timeEncoder := .iso8601
        levelEncoder := .upper
        durationEncoder := .secs
        callerEncoder := .short
        enableStacktrace := false
        enableCaller := true
        development := false
        sampleTick := 1000000000
        sampleFirst := 100
        sampleThereafter := 100
        sampleOpts := []
        observer := none } := rfl

/-- C7: malformed key-value arguments are recovered locally — a
trailing key with no value is dropped while every preceding complete
pair is kept; complete pairs are all kept; a non-string key is dropped
together with its value; a zap `Field` in key position is accepted
verbatim; and `sweeten` is a total function, so the log call returns
normally in every case. -/
theorem sweeten_salvage :
    (∀ (ps : List (String × Arg)) (k : String),
      sweeten (flattenPairs ps ++ [Arg.str k]) =
        ps.map fun p => ZField.pair p.1 p.2) ∧
    (∀ ps : List (String × Arg),
      sweeten (flattenPairs ps) = ps.map fun p => ZField.pair p.1 p.2) ∧
    (∀ (x : Nat) (v : Arg) (rest : List Arg),
      sweeten (.other x :: v :: rest) = sweeten rest) ∧
    (∀ (fk : String) (rest : List Arg),
      sweeten (.field fk :: rest) = .raw fk :: sweeten rest) := by
  refine ⟨?_, ?_, fun _ _ _ => rfl, fun _ _ => rfl⟩
  · intro ps k
    induction ps with
    | nil => rfl
    | cons p ps ih =>
      obtain ⟨k0, v0⟩ := p
      simpa [flattenPairs, sweeten] using ih
  · intro ps
    induction ps with
    | nil => rfl
    | cons p ps ih =>
      obtain ⟨k0, v0⟩ := p
      simpa [flattenPairs, sweeten] using ih

/-- C8, counterexample: the concrete sink's `WithCallDepth(0)` does NOT
return a new sink node — the source short-circuits `if depth == 0
{ return s }` and hands back the receiver. -/
theorem withCallDepth_zero_returns_receiver :
    ¬ (sinkWithCallDepth exampleGoSink 0).2 = true := by decide

theorem nameOf_setSink (t : LazyTree) (s : ZSink) :
    nameOf (setSink t s) = nameOf t := by
  obtain ⟨sk, info, b, name, depth, values, children⟩ := t
  simp [setSink, nameOf]

theorem valuesOf_setSink (t : LazyTree) (s : ZSink) :
    valuesOf (setSink t s) = valuesOf t := by
  obtain ⟨sk, info, b, name, depth, values, children⟩ := t
  simp [setSink, valuesOf]

theorem depthOf_setSink (t : LazyTree) (s : ZSink) :
    depthOf (setSink t s) = depthOf t := by
  obtain ⟨sk, info, b, name, depth, values, children⟩ := t
  simp [setSink, depthOf]

theorem nameOf_appendChild (t c : LazyTree) :
    nameOf (appendChild t c) = nameOf t := by
  obtain ⟨sk, info, b, name, depth, values, children⟩ := t
  simp [appendChild, nameOf]

theorem valuesOf_appendChild (t c : LazyTree) :
    valuesOf (appendChild t c) = valuesOf t := by
  obtain ⟨sk, info, b, name, depth, values, children⟩ := t
  simp [appendChild, valuesOf]

theorem depthOf_appendChild (t c : LazyTree) :
    depthOf (appendChild t c) = depthOf t := by
  obtain ⟨sk, info, b, name, depth, values, children⟩ := t
  simp [appendChild, depthOf]

theorem sinkOf_appendChild (t c : LazyTree) :
    sinkOf (appendChild t c) = sinkOf t := by
  obtain ⟨sk, info, b, name, depth, values, children⟩ := t
  simp [appendChild, sinkOf]

/-- C8 (amended): every derivation leaves the receiver's own state
unchanged, and: the concrete sink's `WithValues` and `WithName` return
a new node, its `WithCallDepth` returns a new node exactly for non-zero
depth and the receiver itself for zero depth; the discard sink's
derivations return the shared discard instance, never a new node; every
lazy derivation (including `WithCallDepth(0)`) returns a new child
node, and the lazy receiver's buffered name, values and depth are
unchanged, its backing sink too while it is unattached (an attached
lazy receiver's backing is re-derived by the defective
`WithValues`/`WithName`/`WithCallDepth` path — see the C2 theorem). -/
theorem derivation_freshness_and_frame :
    (∀ (s : GoSink) (kvs : List Arg),
      (sinkWithValues s kvs).2 = true ∧
      (sinkWithValues s kvs).1.names = s.names ∧
      (sinkWithValues s kvs).1.depth = s.depth ∧
      (sinkWithValues s kvs).1.maxLevel = s.maxLevel) ∧
    (∀ (s : GoSink) (n : String),
      (sinkWithName s n).2 = true ∧
      (sinkWithName s n).1.depth = s.depth ∧
      (sinkWithName s n).1.maxLevel = s.maxLevel) ∧
    (∀ (s : GoSink) (d : Int),
      (d ≠ 0 → (sinkWithCallDepth s d).2 = true) ∧
      sinkWithCallDepth s 0 = (s, false) ∧
      (sinkWithCallDepth s d).1.names = s.names ∧
      (sinkWithCallDepth s d).1.maxLevel = s.maxLevel) ∧
    (∀ (ds : DiscardSink) (kvs : List Arg) (n : String) (d : Int),
      discardWithValues ds kvs = (.mk, false) ∧
      discardWithName ds n = (.mk, false) ∧
      discardWithCallDepth ds d = (.mk, false)) ∧
    (∀ (t : LazyTree) (kvs : List Arg) (n : String) (d : Int),
      (withValuesGo t kvs).2 =
        LazyTree.node .discard (infoOf t + 1) false "" 0 kvs [] ∧
      (withNameGo t n).2 =
        LazyTree.node .discard (infoOf t + 1) false n 0 [] [] ∧
      (withCallDepthGo t d).2 =
        LazyTree.node .discard (infoOf t + 1) false "" d [] [] ∧
      nameOf (withValuesGo t kvs).1 = nameOf t ∧
      valuesOf (withValuesGo t kvs).1 = valuesOf t ∧
      depthOf (withValuesGo t kvs).1 = depthOf t ∧
      nameOf (withNameGo t n).1 = nameOf t ∧
      valuesOf (withNameGo t n).1 = valuesOf t ∧
      depthOf (withNameGo t n).1 = depthOf t ∧
      nameOf (withCallDepthGo t d).1 = nameOf t ∧
      valuesOf (withCallDepthGo t d).1 = valuesOf t ∧
      depthOf (withCallDepthGo t d).1 = depthOf t ∧
      (setOf t = false →
        sinkOf (withValuesGo t kvs).1 = sinkOf t ∧
        sinkOf (withNameGo t n).1 = sinkOf t ∧
        sinkOf (withCallDepthGo t d).1 = sinkOf t)) := by
  refine ⟨?_, ?_, ?_, ?_, ?_⟩
  · intro s kvs
    exact ⟨rfl, rfl, rfl, rfl⟩
  · intro s n
    exact ⟨rfl, rfl, rfl⟩
  · intro s d
    refine ⟨?_, ?_, ?_, ?_⟩
    · intro hd
      simp [sinkWithCallDepth, hd]
    · simp [sinkWithCallDepth]
    · unfold sinkWithCallDepth
      split <;> rfl
    · unfold sinkWithCallDepth
      split <;> rfl
  · intro ds kvs n d
    exact ⟨rfl, rfl, rfl⟩
  · intro t kvs n d
    obtain ⟨sk, info, b, name, depth, values, children⟩ := t
    cases b
    · exact ⟨rfl, rfl, rfl, rfl, rfl, rfl, rfl, rfl, rfl, rfl, rfl, rfl,
        fun _ => ⟨rfl, rfl, rfl⟩⟩
    · refine ⟨rfl, rfl, rfl, ?_, ?_, ?_, ?_, ?_, ?_, ?_, ?_, ?_, ?_⟩
      · show nameOf (appendChild
            (setSink (LazyTree.node sk info true name depth values children) sk)
            (LazyTree.node .discard (info + 1) false "" 0 kvs [])) = name
        rw [nameOf_appendChild, nameOf_setSink]
        rfl
      · show valuesOf (appendChild
            (setSink (LazyTree.node sk info true name depth values children) sk)
            (LazyTree.node .discard (info + 1) false "" 0 kvs [])) = values
        rw [valuesOf_appendChild, valuesOf_setSink]
        rfl
      · show depthOf (appendChild
            (setSink (LazyTree.node sk info true name depth values children) sk)
            (LazyTree.node .discard (info + 1) false "" 0 kvs [])) = depth
        rw [depthOf_appendChild, depthOf_setSink]
        rfl
      · show nameOf (appendChild
            (setSink (LazyTree.node sk info true name depth values children) sk)
            (LazyTree.node .discard (info + 1) false n 0 [] [])) = name
        rw [nameOf_appendChild, nameOf_setSink]
        rfl
      · show valuesOf (appendChild
            (setSink (LazyTree.node sk info true name depth values children) sk)
            (LazyTree.node .discard (info + 1) false n 0 [] [])) = values
        rw [valuesOf_appendChild, valuesOf_setSink]
        rfl
      · show depthOf (appendChild
            (setSink (LazyTree.node sk info true name depth values children) sk)
            (LazyTree.node .discard (info + 1) false n 0 [] [])) = depth
        rw [depthOf_appendChild, depthOf_setSink]
        rfl
      · show nameOf (appendChild
            (setSink (LazyTree.node sk info true name depth values children) sk)
            (LazyTree.node .discard (info + 1) false "" d [] [])) = name
        rw [nameOf_appendChild, nameOf_setSink]
        rfl
      · show valuesOf (appendChild
            (setSink (LazyTree.node sk info true name depth values children) sk)
            (LazyTree.node .discard (info + 1) false "" d [] [])) = values
        rw [valuesOf_appendChild, valuesOf_setSink]
        rfl
      · show depthOf (appendChild
            (setSink (LazyTree.node sk info true name depth values children) sk)
            (LazyTree.node .discard (info + 1) false "" d [] [])) = depth
        rw [depthOf_appendChild, depthOf_setSink]
        rfl
      · intro hfalse
        exact absurd hfalse (by simp [setOf])

/-- C9: registering under a present name yields a descriptive error
(and, the result being an error, no new registry); registering under a
fresh name succeeds and makes the encoder retrievable; setting the flag
to an absent name yields a descriptive error and leaves the target
unchanged; setting it to a present name assigns the registered
encoder. -/
theorem encoder_registry_errors :
    (∀ (reg : List (String × GoEncoder)) (e : GoEncoder),
      (reg.lookup e.name).isSome = true →
        registerEncoder reg e =
          .error ("zapr: Encoder \"" ++ e.name ++ "\" already ")) ∧
    (∀ (reg : List (String × GoEncoder)) (e : GoEncoder),
      reg.lookup e.name = none →
        ∃ reg2, registerEncoder reg e = .ok reg2 ∧
          reg2.lookup e.name = some e) ∧
    (∀ (reg : List (String × GoEncoder)) (s : String) (old : GoEncoder),
      reg.lookup s = none →
        encoderFlagSet reg s old =
          (some ("zapr: unknown Encoder: \"" ++ s ++ "\""), old)) ∧
    (∀ (reg : List (String × GoEncoder)) (s : String) (old e : GoEncoder),
      reg.lookup s = some e → encoderFlagSet reg s old = (none, e)) := by
  refine ⟨?_, ?_, ?_, ?_⟩
  · intro reg e h
    simp [registerEncoder, h]
  · intro reg e h
    refine ⟨(e.name, e) :: reg, ?_, ?_⟩
    · simp [registerEncoder, h]
    · simp [List.lookup]
  · intro reg s old h
    simp [encoderFlagSet, h]
  · intro reg s old e h
    simp [encoderFlagSet, h]

/-- C10: the concrete sink's `Error` never consults the configured
maximum level — it always emits, and its result is invariant under
changing `maxLevel`; `Enabled(level)` is true exactly when
`level <= maxLevel`; and `Info` emits exactly when `Enabled(level)`. -/
theorem error_ignores_max_level :
    (∀ (s : GoSink) (err : Option String) (msg : String) (kvs : List Arg)
        (m2 : Int),
      (sinkError s err msg kvs).isSome = true ∧
      sinkError { s with maxLevel := m2 } err msg kvs =
        sinkError s err msg kvs) ∧
    (∀ (s : GoSink) (level : Int),
      sinkEnabled s level = decide (level ≤ s.maxLevel)) ∧
    (∀ (s : GoSink) (level : Int) (msg : String) (kvs : List Arg),
      (sinkInfo s level msg kvs).isSome = sinkEnabled s level) := by
  refine ⟨?_, fun s level => rfl, ?_⟩
  · intro s err msg kvs m2
    refine ⟨?_, ?_⟩
    · cases err with
      | none => rfl
      | some e =>
        simp only [sinkError]
        split <;> rfl
    · cases err <;> rfl
  · intro s level msg kvs
    unfold sinkInfo sinkEnabled
    by_cases h : s.maxLevel < level
    · rw [if_pos h]
      have h2 : ¬ (level ≤ s.maxLevel) := by omega
      simp [h2]
    · rw [if_neg h]
      have h2 : level ≤ s.maxLevel := by omega
      simp [h2]

end Zapr
